import Mathlib

/-!
Verification of the metadata reflection layer in `django_sorcery/db/meta.py`.

The embedding models:
* `relation_info.local_remote_pairs_for_identity_key` (identity-key pairing
  resolution with its foreign-key-constraint fallback),
* `column_info.field_kwargs` (field-parameter bundle construction),
* `composite_info` (composite attribute discovery and `field_names`),
* `model_info._configure` (the additive build step for the four maps),
* `model_info_meta.__call__` (the per-model-type descriptor registry).

Columns are modelled as `Nat` identities, property keys as `String`s.
Python dicts are modelled as association lists with the relevant dict
semantics made explicit (comprehension overwrite keeps the last value,
insertion keeps first-key position, `in` tests keys).
-/

namespace Meta

/-- A relationship, as seen by `local_remote_pairs_for_identity_key`:
the target primary-key columns in declared order
(`list(self.relationship.target.primary_key)`), the raw
`local_remote_pairs` as `(local, remote)` column pairs, and the
foreign-key constraints of the owning table, each given by its
elements as `(parent, column)` pairs (`j.parent` referencing local
column, `j.column` referenced column). -/
structure RelData where
  targetPk : List Nat
  localRemotePairs : List (Nat × Nat)
  parentConstraints : List (List (Nat × Nat))
deriving DecidableEq

/-- Lookup in the dict `\x7bv: k for k, v in self.local_remote_pairs\x7d`:
keyed by remote column, valued by local column, later pairs overwrite
earlier ones, hence the last matching pair wins. -/
def revLookup (pairs : List (Nat × Nat)) (r : Nat) : Option Nat :=
  (pairs.reverse.find? (fun p => p.2 == r)).map Prod.fst

/-- Lookup in the dict `\x7bi.column: i.parent for i in constraint.elements\x7d`:
keyed by referenced column, valued by referencing local column, last wins. -/
def conLookup (elems : List (Nat × Nat)) (c : Nat) : Option Nat :=
  (elems.reverse.find? (fun e => e.2 == c)).map Prod.fst

/-- First-occurrence deduplication helper: keys already seen are skipped. -/
def pyKeysAux (seen : List Nat) : List Nat → List Nat
  | [] => []
  | a :: l => if seen.contains a then pyKeysAux seen l else a :: pyKeysAux (a :: seen) l

/-- First-occurrence deduplication, the key order of a Python dict. -/
def pyKeys (l : List Nat) : List Nat :=
  pyKeysAux [] l

/-- `set(pairs.values())` of the reverse-lookup dict: the surviving local
column for each distinct remote column (used only as a set). -/
def dictValues (pairs : List (Nat × Nat)) : List Nat :=
  (pyKeys (pairs.map Prod.snd)).filterMap (revLookup pairs)

/-- The fallback selection test of `local_remote_pairs_for_identity_key`:
`parent_columns & set(j.parent for j in i.elements) == parent_columns`
and likewise for the referenced columns, i.e. both required sets are
subsets of the constraint's column sets. -/
def constraintMatches (parentCols targetCols : List Nat) (c : List (Nat × Nat)) : Bool :=
  parentCols.all (fun p => c.any (fun e => e.1 == p)) &&
    targetCols.all (fun t => c.any (fun e => e.2 == t))

/-- The `matching_constraints` list of the fallback path. -/
def matchingConstraints (rel : RelData) : List (List (Nat × Nat)) :=
  rel.parentConstraints.filter
    (constraintMatches (dictValues rel.localRemotePairs) rel.targetPk)

/-- The comprehension `[(pairs[i], i) for i in target_pk]` under a
`try/except KeyError`: any missing key aborts the whole comprehension
(`none` models the raised `KeyError`). -/
def orderedPairs (lookup : Nat → Option Nat) : List Nat → Option (List (Nat × Nat))
  | [] => some []
  | t :: ts =>
    match lookup t, orderedPairs lookup ts with
    | some l, some rest => some ((l, t) :: rest)
    | _, _ => none

/-- The direct path of `local_remote_pairs_for_identity_key`. -/
def directPairs (rel : RelData) : Option (List (Nat × Nat)) :=
  orderedPairs (revLookup rel.localRemotePairs) rel.targetPk

/-- `relation_info.local_remote_pairs_for_identity_key`. The result is
`none` exactly when the code would raise an uncaught exception (the only
candidate being the `pairs[i]` lookup in the single-constraint branch). -/
def local_remote_pairs_for_identity_key (rel : RelData) : Option (List (Nat × Nat)) :=
  match directPairs rel with
  | some res => some res
  | none =>
    match matchingConstraints rel with
    | [c] => orderedPairs (conLookup c) rel.targetPk
    | _ => some rel.localRemotePairs

/-- Exact set equality of two column lists, used to state what the spec
sentence for the fallback selection (`equals exactly`) would require. -/
def sameSet (a b : List Nat) : Bool :=
  a.all (fun x => b.contains x) && b.all (fun x => a.contains x)

/-- Modelled from the spec (§4.5 fallback selection sentence): select
constraints whose referencing-column set equals exactly the locally
known columns and whose referenced-column set equals exactly the
target primary key.  Kept for comparison with `constraintMatches`,
the selection the source actually performs. -/
def constraintMatchesSpec (parentCols targetCols : List Nat) (c : List (Nat × Nat)) : Bool :=
  sameSet parentCols (c.map Prod.fst) && sameSet targetCols (c.map Prod.snd)

/-- Soundness of `orderedPairs`: when every lookup succeeds it returns the
pairs for the given columns, in order, each local column being the
lookup result of its remote column. -/
theorem orderedPairs_sound (f : Nat → Option Nat) (l : List Nat)
    (h : ∀ t ∈ l, (f t).isSome) :
    ∃ res, orderedPairs f l = some res ∧ res.map Prod.snd = l ∧
      ∀ p ∈ res, f p.2 = some p.1 := by
  induction l with
  | nil => exact ⟨[], rfl, rfl, by simp⟩
  | cons t ts ih =>
    obtain ⟨lv, hlv⟩ := Option.isSome_iff_exists.mp (h t (by simp))
    obtain ⟨res, hres, hsnd, hmem⟩ := ih (fun x hx => h x (by simp [hx]))
    refine ⟨(lv, t) :: res, ?_, ?_, ?_⟩
    · simp [orderedPairs, hlv, hres]
    · simp [hsnd]
    · intro p hp
      rcases List.mem_cons.mp hp with hp | hp
      · subst hp; exact hlv
      · exact hmem p hp

/-- Membership in `matchingConstraints` forces both lookups to succeed on
the listed columns. -/
theorem mem_matchingConstraints (rel : RelData) (c : List (Nat × Nat))
    (h : c ∈ matchingConstraints rel) :
    c ∈ rel.parentConstraints ∧
      (∀ p ∈ dictValues rel.localRemotePairs, ∃ e ∈ c, e.1 = p) ∧
      (∀ t ∈ rel.targetPk, ∃ e ∈ c, e.2 = t) := by
  have h1 := List.mem_filter.mp h
  refine ⟨h1.1, ?_, ?_⟩
  · intro p hp
    have := (List.all_eq_true.mp (Bool.and_elim_left h1.2)) p hp
    obtain ⟨e, he, heq⟩ := List.any_eq_true.mp this
    exact ⟨e, he, by simpa using heq⟩
  · intro t ht
    have := (List.all_eq_true.mp (Bool.and_elim_right h1.2)) t ht
    obtain ⟨e, he, heq⟩ := List.any_eq_true.mp this
    exact ⟨e, he, by simpa using heq⟩

theorem conLookup_isSome (c : List (Nat × Nat)) (t : Nat)
    (h : ∃ e ∈ c, e.2 = t) : (conLookup c t).isSome := by
  obtain ⟨e, he, het⟩ := h
  have : (c.reverse.find? (fun e => e.2 == t)).isSome := by
    rw [List.find?_isSome]
    exact ⟨e, List.mem_reverse.mpr he, by simp [het]⟩
  simpa [conLookup] using this

/-- C3: when the reverse map built from the raw local-remote pairs covers
every target primary-key column, the resolver returns (without raising)
one pair per target primary-key column, in declared target order, with
each local column coming from that reverse map. -/
theorem direct_path_reorders (rel : RelData)
    (h : ∀ t ∈ rel.targetPk, (revLookup rel.localRemotePairs t).isSome) :
    ∃ res, local_remote_pairs_for_identity_key rel = some res ∧
      res.map Prod.snd = rel.targetPk ∧
      ∀ p ∈ res, revLookup rel.localRemotePairs p.2 = some p.1 := by
  obtain ⟨res, hres, hsnd, hmem⟩ := orderedPairs_sound _ _ h
  exact ⟨res, by simp [local_remote_pairs_for_identity_key, directPairs, hres], hsnd, hmem⟩

/-- Witness for C3: a single-column target primary key with a fully
specified pair resolves to exactly that one pair. -/
theorem direct_path_reorders_witness :
    (∀ t ∈ (RelData.mk [5] [(3, 5)] []).targetPk,
      (revLookup (RelData.mk [5] [(3, 5)] []).localRemotePairs t).isSome) ∧
    local_remote_pairs_for_identity_key (RelData.mk [5] [(3, 5)] []) = some [(3, 5)] := by
  refine ⟨by decide, ?_⟩
  obtain ⟨res, hres, hsnd, hmem⟩ := direct_path_reorders (RelData.mk [5] [(3, 5)] []) (by decide)
  have : res = [(3, 5)] := by
    have h5 : revLookup [(3, 5)] 5 = some 3 := by decide
    match res, hsnd with
    | [p], hsnd =>
      have hp2 : p.2 = 5 := by simpa using congrArg (fun l => l.headD 0) hsnd
      have := hmem p (by simp)
      rw [hp2, h5] at this
      have hp1 : p.1 = 3 := by
        simpa using congrArg (fun o => o.getD 0) this.symm
      simp [← hp1, ← hp2]
  rw [hres, this]

/-- C4: when the direct path raises and exactly one constraint matches,
the resolver returns (without raising) one pair per target primary-key
column, in declared target order, each local column taken from the
matching constraint's per-column mapping. -/
theorem fallback_single_constraint (rel : RelData) (c : List (Nat × Nat))
    (hd : directPairs rel = none)
    (hm : matchingConstraints rel = [c]) :
    ∃ res, local_remote_pairs_for_identity_key rel = some res ∧
      res.map Prod.snd = rel.targetPk ∧
      ∀ p ∈ res, conLookup c p.2 = some p.1 := by
  have hc : c ∈ matchingConstraints rel := by rw [hm]; simp
  have hcover := (mem_matchingConstraints rel c hc).2.2
  obtain ⟨res, hres, hsnd, hmem⟩ :=
    orderedPairs_sound (conLookup c) rel.targetPk
      (fun t ht => conLookup_isSome c t (hcover t ht))
  refine ⟨res, ?_, hsnd, hmem⟩
  simp [local_remote_pairs_for_identity_key, hd, hm, hres]

/-- Witness for C4: a two-column target primary key, one column mapped
directly, the missing pair supplied by the unique matching constraint. -/
theorem fallback_single_constraint_witness :
    directPairs (RelData.mk [10, 11] [(1, 10)] [[(1, 10), (2, 11)]]) = none ∧
    matchingConstraints (RelData.mk [10, 11] [(1, 10)] [[(1, 10), (2, 11)]]) =
      [[(1, 10), (2, 11)]] ∧
    (∃ res, local_remote_pairs_for_identity_key
        (RelData.mk [10, 11] [(1, 10)] [[(1, 10), (2, 11)]]) = some res ∧
      res.map Prod.snd = (RelData.mk [10, 11] [(1, 10)] [[(1, 10), (2, 11)]]).targetPk ∧
      ∀ p ∈ res, conLookup [(1, 10), (2, 11)] p.2 = some p.1) :=
  ⟨by decide, by decide,
    fallback_single_constraint (RelData.mk [10, 11] [(1, 10)] [[(1, 10), (2, 11)]])
      [(1, 10), (2, 11)] (by decide) (by decide)⟩

/-- C9: when the direct path raises and the number of matching
constraints is not one (absent or ambiguous), the resolver returns the
raw local-remote pairs unchanged and raises nothing. -/
theorem fallback_ambiguous_returns_raw (rel : RelData)
    (hd : directPairs rel = none)
    (hm : (matchingConstraints rel).length ≠ 1) :
    local_remote_pairs_for_identity_key rel = some rel.localRemotePairs := by
  unfold local_remote_pairs_for_identity_key
  rw [hd]
  match hmc : matchingConstraints rel with
  | [] => rfl
  | [c] => exact absurd (by rw [hmc]; rfl) hm
  | c1 :: c2 :: rest => rfl

/-- Witness for C9: no constraint matches, the raw pair list comes back. -/
theorem fallback_ambiguous_returns_raw_witness :
    directPairs (RelData.mk [10, 11] [(1, 10)] []) = none ∧
    (matchingConstraints (RelData.mk [10, 11] [(1, 10)] [])).length ≠ 1 ∧
    local_remote_pairs_for_identity_key (RelData.mk [10, 11] [(1, 10)] []) =
      some [(1, 10)] :=
  ⟨by decide, by decide,
    fallback_ambiguous_returns_raw (RelData.mk [10, 11] [(1, 10)] []) (by decide) (by decide)⟩

/-- Counterexample to C1: the source's fallback selection is a subset
test, not exact set equality.  Here the constraint's referencing-column
set strictly contains the locally known columns and its referenced-column
set strictly contains the target primary key, yet the constraint is
selected, and its selection changes the resolver's output away from the
raw pairs that an empty selection would have produced. -/
theorem constraint_selection_not_exact :
    constraintMatches
        (dictValues (RelData.mk [10, 11] [(1, 10)] [[(1, 10), (2, 11), (3, 12)]]).localRemotePairs)
        (RelData.mk [10, 11] [(1, 10)] [[(1, 10), (2, 11), (3, 12)]]).targetPk
        [(1, 10), (2, 11), (3, 12)] = true ∧
    constraintMatchesSpec
        (dictValues (RelData.mk [10, 11] [(1, 10)] [[(1, 10), (2, 11), (3, 12)]]).localRemotePairs)
        (RelData.mk [10, 11] [(1, 10)] [[(1, 10), (2, 11), (3, 12)]]).targetPk
        [(1, 10), (2, 11), (3, 12)] = false ∧
    matchingConstraints (RelData.mk [10, 11] [(1, 10)] [[(1, 10), (2, 11), (3, 12)]]) =
      [[(1, 10), (2, 11), (3, 12)]] ∧
    local_remote_pairs_for_identity_key
        (RelData.mk [10, 11] [(1, 10)] [[(1, 10), (2, 11), (3, 12)]]) =
      some [(1, 10), (2, 11)] ∧
    some (RelData.mk [10, 11] [(1, 10)] [[(1, 10), (2, 11), (3, 12)]]).localRemotePairs ≠
      some [(1, 10), (2, 11)] := by
  refine ⟨by decide, by decide, by decide, by decide, by decide⟩

/-- C1 amended: a foreign-key constraint of the owning table is selected
iff its referencing-column set contains (as a superset, not necessarily
exactly) every locally known column and its referenced-column set
contains every target primary-key column. -/
theorem constraint_selection_superset (rel : RelData) (c : List (Nat × Nat)) :
    c ∈ matchingConstraints rel ↔
      c ∈ rel.parentConstraints ∧
        (∀ p ∈ dictValues rel.localRemotePairs, ∃ e ∈ c, e.1 = p) ∧
        (∀ t ∈ rel.targetPk, ∃ e ∈ c, e.2 = t) := by
  constructor
  · exact mem_matchingConstraints rel c
  · rintro ⟨hmem, hp, ht⟩
    refine List.mem_filter.mpr ⟨hmem, ?_⟩
    unfold constraintMatches
    rw [Bool.and_eq_true]
    constructor
    · rw [List.all_eq_true]
      intro p hpmem
      obtain ⟨e, he, heq⟩ := hp p hpmem
      exact List.any_eq_true.mpr ⟨e, he, by simp [heq]⟩
    · rw [List.all_eq_true]
      intro t htmem
      obtain ⟨e, he, heq⟩ := ht t htmem
      exact List.any_eq_true.mpr ⟨e, he, by simp [heq]⟩

/-- The attributes of a column (and of its type) that `field_kwargs`
reads.  For each duck-typed attribute access guarded by
`suppress(AttributeError)`, an outer `none` means the attribute is
absent (access raises `AttributeError`); for `enum_class` the inner
`Option` distinguishes a present-but-`None` value. -/
structure ColumnData where
  key : String
  doc : Option String
  enumClassAttr : Option (Option String)
  enumsAttr : Option (List String)
  precisionAttr : Option Nat
  scaleAttr : Option Nat
  pythonTypeDecimal : Option Bool
  lengthAttr : Option Nat
  infoRequired : Option Bool
  nullable : Bool
  infoValidators : Option (List Nat)
deriving DecidableEq

/-- The values a `field_kwargs` entry can hold. -/
inductive PyVal where
  | pstr (s : String)
  | pnone
  | pclass (e : String)
  | plist (l : List String)
  | pnat (n : Nat)
  | pbool (b : Bool)
  | pvals (v : List Nat)
deriving DecidableEq

/-- Django `capfirst`: upper-case the first character. -/
def capfirst (s : String) : String :=
  match s.data with
  | [] => s
  | c :: rest => String.mk (c.toUpper :: rest)

/-- `capfirst(" ".join(key.split("_")))`. -/
def label_of (key : String) : String :=
  capfirst (String.intercalate " " (key.splitOn "_"))

/-- `column_info.field_kwargs`, as the ordered key-value list the kwargs
dict accumulates.  Each `suppress(AttributeError)` block contributes its
keys only when every attribute it reads before the assignment is
present; a missing attribute aborts just that block. -/
def field_kwargs (cd : ColumnData) : List (String × PyVal) :=
  let base := [("label", PyVal.pstr (label_of cd.key)),
    ("help_text", match cd.doc with | some d => PyVal.pstr d | none => PyVal.pnone)]
  let enumPart :=
    match cd.enumClassAttr with
    | none => []
    | some (some e) => [("enum_class", PyVal.pclass e)]
    | some none =>
      match cd.enumsAttr with
      | some l => [("choices", PyVal.plist l)]
      | none => []
  let decimalPart :=
    match cd.precisionAttr, cd.scaleAttr, cd.pythonTypeDecimal with
    | some p, some sc, some true =>
      [("max_digits", PyVal.pnat p), ("decimal_places", PyVal.pnat sc)]
    | _, _, _ => []
  let lenPart :=
    match cd.lengthAttr with
    | some l => [("max_length", PyVal.pnat l)]
    | none => []
  base ++ enumPart ++ decimalPart ++ lenPart ++
    [("required", PyVal.pbool (cd.infoRequired.getD (!cd.nullable))),
      ("validators", PyVal.pvals (cd.infoValidators.getD []))]

/-- The key set of the field-parameter bundle. -/
def kwargKeys (cd : ColumnData) : List String :=
  (field_kwargs cd).map Prod.fst

/-- C10: the bundle always carries `label`, `help_text`, `required` and
`validators`, whatever optional type attributes are present or absent. -/
theorem field_kwargs_mandatory_keys (cd : ColumnData) :
    "label" ∈ kwargKeys cd ∧ "help_text" ∈ kwargKeys cd ∧
      "required" ∈ kwargKeys cd ∧ "validators" ∈ kwargKeys cd := by
  simp [kwargKeys, field_kwargs]

/-- Counterexample to C8: a column type exposing a raw enumerated value
list but no `enum_class` attribute at all yields a bundle with neither
`choices` nor `enum_class` — the claim requires `choices` to be present. -/
theorem enum_keys_counterexample :
    (ColumnData.mk "state" none none (some ["a", "b"]) none none none none none true none).enumClassAttr
        = none ∧
    (ColumnData.mk "state" none none (some ["a", "b"]) none none none none none true none).enumsAttr
        = some ["a", "b"] ∧
    "choices" ∉ kwargKeys (ColumnData.mk "state" none none (some ["a", "b"]) none none none none none true none) ∧
    "enum_class" ∉ kwargKeys (ColumnData.mk "state" none none (some ["a", "b"]) none none none none none true none) := by
  refine ⟨rfl, rfl, by decide, by decide⟩

/-- C8 amended: `enum_class` appears iff the type exposes a non-null
enumerated-class attribute; `choices` appears iff the type exposes the
enumerated-class attribute with value null and also exposes the raw
value list; the two keys are mutually exclusive. -/
theorem enum_keys_exclusive (cd : ColumnData) :
    ("enum_class" ∈ kwargKeys cd ↔ ∃ e, cd.enumClassAttr = some (some e)) ∧
      ("choices" ∈ kwargKeys cd ↔
        cd.enumClassAttr = some none ∧ ∃ l, cd.enumsAttr = some l) ∧
      ¬("enum_class" ∈ kwargKeys cd ∧ "choices" ∈ kwargKeys cd) := by
  obtain ⟨k, doc, ec, en, p, sc, pt, len, ir, nb, iv⟩ := cd
  match ec, en with
  | none, none => (simp [kwargKeys, field_kwargs]; aesop)
  | none, some l => (simp [kwargKeys, field_kwargs]; aesop)
  | some none, none => (simp [kwargKeys, field_kwargs]; aesop)
  | some none, some l => (simp [kwargKeys, field_kwargs]; aesop)
  | some (some e), none => (simp [kwargKeys, field_kwargs]; aesop)
  | some (some e), some l => (simp [kwargKeys, field_kwargs]; aesop)

/-- A composite property as `composite_info.__init__` sees it:
`classAttrs` is `vars(composite_class)` in declaration order, flagged by
`isinstance(v, sa.Column)`; `ctorArgs` are the positional parameter
names of `composite_class.__init__`; `props` pairs each sub-property
key with its column, in `zip(self.prop.props, self.prop.columns)`
declared order. -/
structure CompositeData where
  classAttrs : List (String × Bool)
  ctorArgs : List String
  props : List (String × Nat)
deriving DecidableEq

/-- Lexicographic code-point comparison, Python str `<`. -/
def charsLt : List Char → List Char → Bool
  | [], [] => false
  | [], _ :: _ => true
  | _ :: _, [] => false
  | a :: as, b :: bs =>
    if a.toNat < b.toNat then true
    else if b.toNat < a.toNat then false
    else charsLt as bs

/-- Python str `<` on strings. -/
def strLt (a b : String) : Bool :=
  charsLt a.data b.data

/-- Python `name.startswith("_")`: the first character is an underscore. -/
def underscoreNamed (s : String) : Bool :=
  match s.data with
  | [] => false
  | c :: _ => c == '_'

/-- Stable insertion for `sorted`: `a` is placed before elements it is
not greater than, after smaller ones. -/
def insStr (a : String) : List String → List String
  | [] => [a]
  | b :: l => if strLt b a then b :: insStr a l else a :: b :: l

/-- Python `sorted` on strings. -/
def sortStrs : List String → List String
  | [] => []
  | a :: l => insStr a (sortStrs l)

/-- First-occurrence deduplication helper on strings. -/
def pyStrKeysAux (seen : List String) : List String → List String
  | [] => []
  | a :: l => if seen.contains a then pyStrKeysAux seen l else a :: pyStrKeysAux (a :: seen) l

/-- First-occurrence deduplication, the key order of a Python dict. -/
def pyStrKeys (l : List String) : List String :=
  pyStrKeysAux [] l

/-- Attribute-name discovery:
`sorted([k for k, v in vars(composite_class).items() if isinstance(v, sa.Column)])`,
falling back to the constructor's argument names when empty. -/
def composite_attrs (cd : CompositeData) : List String :=
  let a := sortStrs ((cd.classAttrs.filter Prod.snd).map Prod.fst)
  if a.isEmpty then cd.ctorArgs else a

/-- The keys of the `properties` ordered dict, built by
`for attr, prop, col in zip(attrs, ...): properties[attr] = ...`
(zip truncates to the shorter list, repeated keys keep their first
position). -/
def composite_properties_keys (cd : CompositeData) : List String :=
  pyStrKeys (((composite_attrs cd).zip cd.props).map Prod.fst)

/-- A possible iteration order of the Python set
`self._field_names.update(self.properties.keys())`: any duplicate-free
enumeration of the key set.  CPython string hashing is randomized, so
the order is genuinely unspecified. -/
def validEnum (cd : CompositeData) (enum : List String) : Prop :=
  enum.Nodup ∧ (∀ x ∈ enum, x ∈ composite_properties_keys cd) ∧
    (∀ x ∈ composite_properties_keys cd, x ∈ enum)

/-- `composite_info.field_names`: the set of property keys, enumerated in
set order, with underscore-named attributes filtered out. -/
def composite_field_names (_cd : CompositeData) (enum : List String) : List String :=
  enum.filter (fun a => !underscoreNamed a)

theorem pyStrKeysAux_nodup (l : List String) :
    ∀ seen, (pyStrKeysAux seen l).Nodup ∧ ∀ x ∈ pyStrKeysAux seen l, x ∉ seen := by
  induction l with
  | nil => intro seen; simp [pyStrKeysAux]
  | cons a l ih =>
    intro seen
    cases h : seen.contains a with
    | true =>
      have := ih seen
      rw [pyStrKeysAux, h]
      simpa using this
    | false =>
      have hrec := ih (a :: seen)
      rw [pyStrKeysAux, h]
      simp only [Bool.false_eq_true, if_false]
      refine ⟨List.nodup_cons.mpr ⟨fun hmem => by simpa using hrec.2 a hmem, hrec.1⟩, ?_⟩
      intro x hx
      rcases List.mem_cons.mp hx with rfl | hx
      · intro hseen
        simp at h
        exact h hseen
      · have := hrec.2 x hx
        intro hseen
        exact this (by simp [hseen])

theorem pyStrKeys_nodup (l : List String) : (pyStrKeys l).Nodup :=
  (pyStrKeysAux_nodup l []).1

/-- Counterexample to C2: a composite backed by 2 columns declared in
the order `b`, `a`.  The declared sub-property order is `[b, a]`, yet
with the (valid) set enumeration `[a, b]` — which is also the
alphabetically sorted key order of the `properties` dict — the produced
`field_names` is `[a, b]`, not the declared order. -/
theorem composite_order_counterexample :
    validEnum (CompositeData.mk [("b", true), ("a", true)] [] [("b", 0), ("a", 1)])
        ["a", "b"] ∧
    (CompositeData.mk [("b", true), ("a", true)] [] [("b", 0), ("a", 1)]).props.length = 2 ∧
    composite_field_names
        (CompositeData.mk [("b", true), ("a", true)] [] [("b", 0), ("a", 1)]) ["a", "b"] ≠
      (CompositeData.mk [("b", true), ("a", true)] [] [("b", 0), ("a", 1)]).props.map Prod.fst := by
  refine ⟨⟨by decide, by decide, by decide⟩, rfl, by decide⟩

/-- C2 amended: for a composite whose `properties` dict has exactly 2
keys, neither starting with an underscore, every valid set enumeration
yields exactly 2 field names, and they are exactly those 2 keys — but
in an unspecified order rather than the declared sub-property order. -/
theorem composite_field_names_pair (cd : CompositeData) (enum : List String)
    (k1 k2 : String) (h : validEnum cd enum)
    (hk : composite_properties_keys cd = [k1, k2])
    (h1 : underscoreNamed k1 = false) (h2 : underscoreNamed k2 = false) :
    (composite_field_names cd enum).length = 2 ∧
      ∀ x, x ∈ composite_field_names cd enum ↔ x = k1 ∨ x = k2 := by
  obtain ⟨hnd, hsub, hsup⟩ := h
  have hne : k1 ≠ k2 := by
    have := pyStrKeys_nodup (((composite_attrs cd).zip cd.props).map Prod.fst)
    rw [show pyStrKeys (((composite_attrs cd).zip cd.props).map Prod.fst)
        = composite_properties_keys cd from rfl, hk] at this
    simpa using this
  have hmemiff : ∀ x, x ∈ enum ↔ x = k1 ∨ x = k2 := by
    intro x
    constructor
    · intro hx
      have := hsub x hx
      rw [hk] at this
      simpa using this
    · rintro (rfl | rfl)
      · exact hsup x (by rw [hk]; simp)
      · exact hsup x (by rw [hk]; simp)
  have hfilter : composite_field_names cd enum = enum := by
    unfold composite_field_names
    rw [List.filter_eq_self]
    intro x hx
    rcases (hmemiff x).mp hx with rfl | rfl
    · simp [h1]
    · simp [h2]
  have hperm : enum.Perm [k1, k2] := by
    rw [List.perm_ext_iff_of_nodup hnd (by simp [hne])]
    intro x
    rw [hmemiff x]
    simp
  constructor
  · rw [hfilter, hperm.length_eq]
    rfl
  · intro x
    rw [hfilter, hmemiff x]

/-- Witness for the amended C2. -/
theorem composite_field_names_pair_witness :
    validEnum (CompositeData.mk [("x", true), ("y", true)] [] [("x", 3), ("y", 4)])
        ["y", "x"] ∧
    composite_properties_keys (CompositeData.mk [("x", true), ("y", true)] [] [("x", 3), ("y", 4)])
        = ["x", "y"] ∧
    ((composite_field_names (CompositeData.mk [("x", true), ("y", true)] [] [("x", 3), ("y", 4)])
        ["y", "x"]).length = 2 ∧
      ∀ x, x ∈ composite_field_names
          (CompositeData.mk [("x", true), ("y", true)] [] [("x", 3), ("y", 4)]) ["y", "x"] ↔
        x = "x" ∨ x = "y") :=
  ⟨⟨by decide, by decide, by decide⟩, by decide,
    composite_field_names_pair
      (CompositeData.mk [("x", true), ("y", true)] [] [("x", 3), ("y", 4)]) ["y", "x"]
      "x" "y" ⟨by decide, by decide, by decide⟩ (by decide) (by decide) (by decide)⟩

/-- The introspection data `model_info._configure` reads from its fixed
mapper: the primary-key columns, all columns, the owning property key of
each column (`get_property_by_column(col).key`), and the composite and
relationship properties as `(key, underlying object id)` pairs. -/
structure MapperData where
  primaryKey : List Nat
  columns : List Nat
  getPropKey : Nat → String
  composites : List (String × Nat)
  relationships : List (String × Nat)

/-- The four name-keyed dicts a `model_info` holds. -/
structure ModelState where
  primary_keys : List (String × Nat)
  properties : List (String × Nat)
  composites : List (String × Nat)
  relationships : List (String × Nat)
deriving DecidableEq

/-- Python `key in dict`. -/
def hasKey (m : List (String × Nat)) (k : String) : Bool :=
  m.any (fun e => e.1 == k)

/-- One `for ... : if <key not guarded and not already recorded>: insert`
loop of `_configure`: entries are appended only when the guard is false
and the key is not yet present. -/
def addEntries {β : Type} (key : β → String) (val : β → Nat) (g : String → Bool)
    (src : List β) (m : List (String × Nat)) : List (String × Nat) :=
  src.foldl
    (fun acc b => if g (key b) || hasKey acc (key b) then acc else acc ++ [(key b, val b)]) m

/-- The primary-key loop: `if attr.key not in self.primary_keys`. -/
def pkStep (d : MapperData) (m : List (String × Nat)) : List (String × Nat) :=
  addEntries d.getPropKey (fun c => c) (fun _ => false) d.primaryKey m

/-- The columns loop:
`if attr.key not in self.primary_keys and attr.key not in self.properties`,
where `self.primary_keys` is the map left by the preceding loop. -/
def colStep (d : MapperData) (pk m : List (String × Nat)) : List (String × Nat) :=
  addEntries d.getPropKey (fun c => c) (fun k => hasKey pk k) d.columns m

/-- The composites and relationships loops:
`if <key> not in self.<map>`. -/
def keyStep (src : List (String × Nat)) (m : List (String × Nat)) : List (String × Nat) :=
  addEntries Prod.fst Prod.snd (fun _ => false) src m

/-- `model_info._configure`: the four strictly additive loops, run in
source order (the columns loop consults the updated primary-key map). -/
def _configure (d : MapperData) (s : ModelState) : ModelState :=
  ModelState.mk (pkStep d s.primary_keys)
    (colStep d (pkStep d s.primary_keys) s.properties)
    (keyStep d.composites s.composites)
    (keyStep d.relationships s.relationships)

/-- The state of a freshly constructed `model_info` before `_configure`. -/
def initialState : ModelState :=
  ModelState.mk [] [] [] []

theorem hasKey_append (m : List (String × Nat)) (a : String) (v : Nat) (k : String) :
    hasKey (m ++ [(a, v)]) k = (hasKey m k || a == k) := by
  simp [hasKey]

theorem hasKey_addEntries {β : Type} (key : β → String) (val : β → Nat)
    (g : String → Bool) (src : List β) :
    ∀ m k, hasKey (addEntries key val g src m) k =
      (hasKey m k || src.any (fun b => key b == k && !g (key b))) := by
  induction src with
  | nil => intro m k; simp [addEntries]
  | cons b0 rest ih =>
    intro m k
    show hasKey (addEntries key val g rest
        (if g (key b0) || hasKey m (key b0) then m else m ++ [(key b0, val b0)])) k = _
    cases hg : g (key b0) with
    | true =>
      rw [ih]
      simp [hg]
    | false =>
      cases hm : hasKey m (key b0) with
      | true =>
        rw [if_pos (by simp [hg, hm]), ih]
        simp only [List.any_cons, hg, Bool.not_false, Bool.and_true]
        cases hk : key b0 == k with
        | true =>
          have : hasKey m k = true := by rwa [eq_of_beq hk] at hm
          simp [this]
        | false => simp
      | false =>
        rw [if_neg (by simp [hg, hm]), ih, hasKey_append]
        simp only [List.any_cons, hg, Bool.not_false, Bool.and_true]
        cases hasKey m k <;> cases key b0 == k <;> cases rest.any (fun b => key b == k && !g (key b)) <;> rfl

theorem addEntries_covers {β : Type} (key : β → String) (val : β → Nat)
    (g : String → Bool) (src : List β) (m : List (String × Nat)) :
    ∀ b ∈ src, g (key b) = true ∨ hasKey (addEntries key val g src m) (key b) = true := by
  intro b hb
  cases hg : g (key b) with
  | true => exact Or.inl rfl
  | false =>
    refine Or.inr ?_
    rw [hasKey_addEntries]
    have : src.any (fun x => key x == key b && !g (key x)) = true :=
      List.any_eq_true.mpr ⟨b, hb, by simp [hg]⟩
    simp [this]

theorem addEntries_noop {β : Type} (key : β → String) (val : β → Nat)
    (g : String → Bool) (src : List β) :
    ∀ m, (∀ b ∈ src, g (key b) = true ∨ hasKey m (key b) = true) →
      addEntries key val g src m = m := by
  induction src with
  | nil => intro m _; rfl
  | cons b0 rest ih =>
    intro m h
    have hb0 : (g (key b0) || hasKey m (key b0)) = true := by
      rcases h b0 (by simp) with h0 | h0
      · simp [h0]
      · simp [h0]
    show addEntries key val g rest
        (if g (key b0) || hasKey m (key b0) then m else m ++ [(key b0, val b0)]) = m
    rw [if_pos (by simp [hb0])]
    exact ih m (fun b hb => h b (by simp [hb]))

/-- C5: a second `_configure` run with the same mapper data changes none
of the four maps — every loop inserts only keys not already recorded, so
the rerun finds everything recorded and appends nothing (and, the
functions being total, nothing raises). -/
theorem configure_idempotent (d : MapperData) (s : ModelState) :
    _configure d (_configure d s) = _configure d s := by
  have hpk : pkStep d (pkStep d s.primary_keys) = pkStep d s.primary_keys := by
    apply addEntries_noop
    intro b hb
    rcases addEntries_covers d.getPropKey (fun c => c) (fun _ => false) d.primaryKey
        s.primary_keys b hb with h | h
    · exact Or.inl h
    · exact Or.inr h
  have hcol : colStep d (pkStep d s.primary_keys)
      (colStep d (pkStep d s.primary_keys) s.properties) =
      colStep d (pkStep d s.primary_keys) s.properties := by
    apply addEntries_noop
    intro b hb
    exact addEntries_covers d.getPropKey (fun c => c)
      (fun k => hasKey (pkStep d s.primary_keys) k) d.columns s.properties b hb
  have hcomp : keyStep d.composites (keyStep d.composites s.composites) =
      keyStep d.composites s.composites := by
    apply addEntries_noop
    intro b hb
    exact addEntries_covers Prod.fst Prod.snd (fun _ => false) d.composites s.composites b hb
  have hrel : keyStep d.relationships (keyStep d.relationships s.relationships) =
      keyStep d.relationships s.relationships := by
    apply addEntries_noop
    intro b hb
    exact addEntries_covers Prod.fst Prod.snd (fun _ => false) d.relationships s.relationships b hb
  show ModelState.mk (pkStep d (pkStep d s.primary_keys)) _ _ _ = _
  rw [_configure, hpk, hcol, hcomp, hrel]

theorem hasKey_iff_mem (m : List (String × Nat)) (k : String) :
    hasKey m k = true ↔ k ∈ m.map Prod.fst := by
  simp only [hasKey, List.any_eq_true, List.mem_map, beq_iff_eq]

theorem addEntries_keys_nodup {β : Type} (key : β → String) (val : β → Nat)
    (g : String → Bool) (src : List β) :
    ∀ m, (m.map Prod.fst).Nodup → ((addEntries key val g src m).map Prod.fst).Nodup := by
  induction src with
  | nil => intro m hm; exact hm
  | cons b0 rest ih =>
    intro m hm
    show ((addEntries key val g rest
        (if g (key b0) || hasKey m (key b0) then m else m ++ [(key b0, val b0)])).map Prod.fst).Nodup
    by_cases hc : (g (key b0) || hasKey m (key b0)) = true
    · rw [if_pos hc]
      exact ih m hm
    · rw [if_neg hc]
      refine ih _ ?_
      have hnk : key b0 ∉ m.map Prod.fst := by
        intro hmem
        exact hc (by simp [(hasKey_iff_mem m (key b0)).mpr hmem])
      simp [List.nodup_append, hm, hnk]

/-- C7: configuring a fresh descriptor for a mapper with the single
primary-key column `c` puts exactly that column's property in the
primary-key map; under the mapper contract that composite and
relationship keys are distinct from column-property keys and from each
other, every property name lands in at most one of the four maps, and
the name of every non-primary-key column appears exactly once across
the column, composite and relationship maps. -/
theorem configure_partition (d : MapperData) (c : Nat)
    (hpk : d.primaryKey = [c])
    (hcols : ∀ col ∈ d.columns,
      d.getPropKey col ∉ d.composites.map Prod.fst ∧
        d.getPropKey col ∉ d.relationships.map Prod.fst)
    (hpkc : d.getPropKey c ∉ d.composites.map Prod.fst ∧
      d.getPropKey c ∉ d.relationships.map Prod.fst)
    (hcr : ∀ k ∈ d.composites.map Prod.fst, k ∉ d.relationships.map Prod.fst) :
    (_configure d initialState).primary_keys = [(d.getPropKey c, c)] ∧
      (((_configure d initialState).primary_keys.map Prod.fst).Disjoint
          ((_configure d initialState).properties.map Prod.fst) ∧
        ((_configure d initialState).primary_keys.map Prod.fst).Disjoint
          ((_configure d initialState).composites.map Prod.fst) ∧
        ((_configure d initialState).primary_keys.map Prod.fst).Disjoint
          ((_configure d initialState).relationships.map Prod.fst) ∧
        ((_configure d initialState).properties.map Prod.fst).Disjoint
          ((_configure d initialState).composites.map Prod.fst) ∧
        ((_configure d initialState).properties.map Prod.fst).Disjoint
          ((_configure d initialState).relationships.map Prod.fst) ∧
        ((_configure d initialState).composites.map Prod.fst).Disjoint
          ((_configure d initialState).relationships.map Prod.fst)) ∧
      ∀ col ∈ d.columns, d.getPropKey col ≠ d.getPropKey c →
        ((_configure d initialState).properties.map Prod.fst ++
            (_configure d initialState).composites.map Prod.fst ++
            (_configure d initialState).relationships.map Prod.fst).count
          (d.getPropKey col) = 1 := by
  have hpk1 : pkStep d [] = [(d.getPropKey c, c)] := by
    rw [pkStep, hpk]
    simp [addEntries, hasKey]
  have hkpk1 : ∀ k, hasKey (pkStep d []) k = (d.getPropKey c == k) := by
    intro k
    rw [hpk1]
    simp [hasKey]
  have hmemProps : ∀ k, k ∈ (colStep d (pkStep d []) []).map Prod.fst ↔
      ∃ col ∈ d.columns, d.getPropKey col = k ∧ d.getPropKey c ≠ d.getPropKey col := by
    intro k
    rw [← hasKey_iff_mem, colStep, hasKey_addEntries]
    simp only [hkpk1]
    simp [hasKey, List.any_eq_true, and_assoc]
  have hmemKeyStep : ∀ (src : List (String × Nat)) k,
      k ∈ (keyStep src []).map Prod.fst ↔ k ∈ src.map Prod.fst := by
    intro src k
    rw [← hasKey_iff_mem, keyStep, hasKey_addEntries]
    simp [hasKey, List.any_eq_true]
  refine ⟨hpk1, ⟨?_, ?_, ?_, ?_, ?_, ?_⟩, ?_⟩
  · intro a hapk haprops
    have hapk2 : a ∈ (pkStep d []).map Prod.fst := hapk
    rw [hpk1] at hapk2
    simp only [List.map_cons, List.map_nil, List.mem_singleton] at hapk2
    obtain ⟨col, _, heq, hneq⟩ := (hmemProps a).mp haprops
    exact hneq (by rw [heq, hapk2])
  · intro a hapk hacomp
    have hapk2 : a ∈ (pkStep d []).map Prod.fst := hapk
    rw [hpk1] at hapk2
    simp only [List.map_cons, List.map_nil, List.mem_singleton] at hapk2
    have : a ∈ d.composites.map Prod.fst := (hmemKeyStep d.composites a).mp hacomp
    rw [hapk2] at this
    exact hpkc.1 this
  · intro a hapk harel
    have hapk2 : a ∈ (pkStep d []).map Prod.fst := hapk
    rw [hpk1] at hapk2
    simp only [List.map_cons, List.map_nil, List.mem_singleton] at hapk2
    have : a ∈ d.relationships.map Prod.fst := (hmemKeyStep d.relationships a).mp harel
    rw [hapk2] at this
    exact hpkc.2 this
  · intro a haprops hacomp
    obtain ⟨col, hcmem, heq, _⟩ := (hmemProps a).mp haprops
    have : a ∈ d.composites.map Prod.fst := (hmemKeyStep d.composites a).mp hacomp
    rw [← heq] at this
    exact (hcols col hcmem).1 this
  · intro a haprops harel
    obtain ⟨col, hcmem, heq, _⟩ := (hmemProps a).mp haprops
    have : a ∈ d.relationships.map Prod.fst := (hmemKeyStep d.relationships a).mp harel
    rw [← heq] at this
    exact (hcols col hcmem).2 this
  · intro a hacomp harel
    have h1 : a ∈ d.composites.map Prod.fst := (hmemKeyStep d.composites a).mp hacomp
    have h2 : a ∈ d.relationships.map Prod.fst := (hmemKeyStep d.relationships a).mp harel
    exact hcr a h1 h2
  · intro col hcmem hne
    show ((colStep d (pkStep d []) []).map Prod.fst ++
        (keyStep d.composites []).map Prod.fst ++
        (keyStep d.relationships []).map Prod.fst).count (d.getPropKey col) = 1
    rw [List.count_append, List.count_append]
    have h1 : ((colStep d (pkStep d []) []).map Prod.fst).count (d.getPropKey col) = 1 := by
      apply List.count_eq_one_of_mem
      · exact addEntries_keys_nodup _ _ _ _ [] (by simp)
      · exact (hmemProps (d.getPropKey col)).mpr ⟨col, hcmem, rfl, hne.symm⟩
    have h2 : ((keyStep d.composites []).map Prod.fst).count (d.getPropKey col) = 0 :=
      List.count_eq_zero.mpr (fun hmem =>
        (hcols col hcmem).1 ((hmemKeyStep d.composites (d.getPropKey col)).mp hmem))
    have h3 : ((keyStep d.relationships []).map Prod.fst).count (d.getPropKey col) = 0 :=
      List.count_eq_zero.mpr (fun hmem =>
        (hcols col hcmem).2 ((hmemKeyStep d.relationships (d.getPropKey col)).mp hmem))
    rw [h1, h2, h3]

/-- Witness for C7 at a concrete mapper: primary-key column 1 named
`id`, a second column named `name`, one composite `addr`, one
relationship `owner`. -/
theorem configure_partition_witness :
    (MapperData.mk [1] [1, 2] (fun n => if n = 1 then "id" else "name") [("addr", 7)]
        [("owner", 8)]).primaryKey = [1] ∧
    (_configure (MapperData.mk [1] [1, 2] (fun n => if n = 1 then "id" else "name")
        [("addr", 7)] [("owner", 8)]) initialState).primary_keys = [("id", 1)] ∧
    (∀ col ∈ (MapperData.mk [1] [1, 2] (fun n => if n = 1 then "id" else "name")
        [("addr", 7)] [("owner", 8)]).columns,
      (MapperData.mk [1] [1, 2] (fun n => if n = 1 then "id" else "name")
        [("addr", 7)] [("owner", 8)]).getPropKey col ≠ "id" →
      ((_configure (MapperData.mk [1] [1, 2] (fun n => if n = 1 then "id" else "name")
            [("addr", 7)] [("owner", 8)]) initialState).properties.map Prod.fst ++
        (_configure (MapperData.mk [1] [1, 2] (fun n => if n = 1 then "id" else "name")
            [("addr", 7)] [("owner", 8)]) initialState).composites.map Prod.fst ++
        (_configure (MapperData.mk [1] [1, 2] (fun n => if n = 1 then "id" else "name")
            [("addr", 7)] [("owner", 8)]) initialState).relationships.map Prod.fst).count
        ((MapperData.mk [1] [1, 2] (fun n => if n = 1 then "id" else "name")
            [("addr", 7)] [("owner", 8)]).getPropKey col) = 1) := by
  refine ⟨rfl, ?_, ?_⟩
  · exact (configure_partition
      (MapperData.mk [1] [1, 2] (fun n => if n = 1 then "id" else "name") [("addr", 7)]
        [("owner", 8)]) 1 rfl (by decide) (by decide) (by decide)).1
  · exact (configure_partition
      (MapperData.mk [1] [1, 2] (fun n => if n = 1 then "id" else "name") [("addr", 7)]
        [("owner", 8)]) 1 rfl (by decide) (by decide) (by decide)).2.2

/-- An argument to `model_info_meta.__call__`: either a model type or a
mapper handle for a model type (model types are identified by `Nat`). -/
inductive Handle where
  | model (m : Nat)
  | mapper (m : Nat)

/-- `if isinstance(model, sa.orm.Mapper): model = model.class_`. -/
def resolve : Handle → Nat
  | .model m => m
  | .mapper m => m

/-- The metaclass registry: the `_registry` dict (model type → descriptor
instance id) plus a counter supplying fresh instance identities. -/
structure RegState where
  reg : List (Nat × Nat)
  next : Nat

/-- Dict lookup in `cls._registry`. -/
def regLookup : List (Nat × Nat) → Nat → Option Nat
  | [], _ => none
  | (k, v) :: rest, m => if k == m then some v else regLookup rest m

/-- `model_info_meta.__call__`: resolve a mapper handle to its model
type, construct and record a fresh instance only when the model type is
not yet registered, and return the registered instance. -/
def regGet (h : Handle) (s : RegState) : Nat × RegState :=
  match regLookup s.reg (resolve h) with
  | some d => (d, s)
  | none => (s.next, RegState.mk (s.reg ++ [(resolve h, s.next)]) (s.next + 1))

/-- A sequence of registry calls over the registry's lifetime, collecting
the returned instance of each call. -/
def runGets : List Handle → RegState → List Nat × RegState
  | [], s => ([], s)
  | h :: hs, s =>
    ((regGet h s).1 :: (runGets hs (regGet h s).2).1, (runGets hs (regGet h s).2).2)

theorem regLookup_append (l1 l2 : List (Nat × Nat)) (m : Nat) :
    regLookup (l1 ++ l2) m =
      match regLookup l1 m with
      | some d => some d
      | none => regLookup l2 m := by
  induction l1 with
  | nil => rfl
  | cons e rest ih =>
    show regLookup ((e.1, e.2) :: (rest ++ l2)) m = _
    rw [regLookup]
    by_cases hk : (e.1 == m) = true
    · rw [if_pos hk]
      have : regLookup ((e.1, e.2) :: rest) m = some e.2 := by rw [regLookup, if_pos hk]
      rw [this]
    · rw [if_neg hk, ih]
      have : regLookup ((e.1, e.2) :: rest) m = regLookup rest m := by
        rw [regLookup, if_neg hk]
      rw [this]

theorem regGet_lookup (h : Handle) (s : RegState) :
    regLookup (regGet h s).2.reg (resolve h) = some (regGet h s).1 := by
  unfold regGet
  cases hl : regLookup s.reg (resolve h) with
  | some d => exact hl
  | none =>
    show regLookup (s.reg ++ [(resolve h, s.next)]) (resolve h) = some s.next
    rw [regLookup_append, hl]
    simp [regLookup]

theorem regGet_preserves (h : Handle) (s : RegState) (m v : Nat)
    (hl : regLookup s.reg m = some v) :
    regLookup (regGet h s).2.reg m = some v := by
  unfold regGet
  cases hg : regLookup s.reg (resolve h) with
  | some d => exact hl
  | none =>
    show regLookup (s.reg ++ [(resolve h, s.next)]) m = some v
    rw [regLookup_append, hl]

theorem runGets_stable (ops : List Handle) :
    ∀ s m v, regLookup s.reg m = some v →
      ∀ k a, ops.get? k = some a → resolve a = m →
        (runGets ops s).1.get? k = some v := by
  induction ops with
  | nil => intro s m v _ k a hk; simp at hk
  | cons h hs ih =>
    intro s m v hl k a hk hres
    match k, hk with
    | 0, hk =>
      have hh : h = a := by simpa using hk
      have hresh : resolve h = m := by rw [hh, hres]
      have hget : regGet h s = (v, s) := by
        unfold regGet
        rw [hresh, hl]
      show some (regGet h s).1 = some v
      rw [hget]
    | Nat.succ k, hk =>
      have hk2 : hs.get? k = some a := by simpa using hk
      show (runGets hs (regGet h s).2).1.get? k = some v
      exact ih (regGet h s).2 m v (regGet_preserves h s m v hl) k a hk2 hres

/-- C6: two registry calls anywhere in the registry's lifetime whose
arguments resolve to the same model type return the same descriptor
instance, and a call with a mapper handle is literally the same
operation as the call with the underlying model type. -/
theorem registry_unique (ops : List Handle) (s : RegState) (i j : Nat) (a b : Handle)
    (ha : ops.get? i = some a) (hb : ops.get? j = some b)
    (hres : resolve a = resolve b) :
    (runGets ops s).1.get? i = (runGets ops s).1.get? j ∧
      ∀ m t, regGet (Handle.mapper m) t = regGet (Handle.model m) t := by
  refine ⟨?_, fun m t => rfl⟩
  induction ops generalizing s i j with
  | nil => simp at ha
  | cons h hs ih =>
    match i, ha, j, hb with
    | 0, ha, 0, hb => rfl
    | 0, ha, Nat.succ j, hb =>
      have hh : h = a := by simpa using ha
      have hb2 : hs.get? j = some b := by simpa using hb
      have hresb : resolve b = resolve h := by rw [hh, hres]
      show some (regGet h s).1 = (runGets hs (regGet h s).2).1.get? j
      exact (runGets_stable hs (regGet h s).2 (resolve h) (regGet h s).1
        (regGet_lookup h s) j b hb2 hresb).symm
    | Nat.succ i, ha, 0, hb =>
      have hh : h = b := by simpa using hb
      have ha2 : hs.get? i = some a := by simpa using ha
      have hresa : resolve a = resolve h := by rw [hh]; exact hres
      show (runGets hs (regGet h s).2).1.get? i = some (regGet h s).1
      exact runGets_stable hs (regGet h s).2 (resolve h) (regGet h s).1
        (regGet_lookup h s) i a ha2 hresa
    | Nat.succ i, ha, Nat.succ j, hb =>
      have ha2 : hs.get? i = some a := by simpa using ha
      have hb2 : hs.get? j = some b := by simpa using hb
      show (runGets hs (regGet h s).2).1.get? i = (runGets hs (regGet h s).2).1.get? j
      exact ih (regGet h s).2 i j ha2 hb2

/-- Witness for C6: looking model 7 up by model type and then by mapper
handle returns the same instance, from the empty lifetime-initial
registry. -/
theorem registry_unique_witness :
    [Handle.model 7, Handle.mapper 7].get? 0 = some (Handle.model 7) ∧
    [Handle.model 7, Handle.mapper 7].get? 1 = some (Handle.mapper 7) ∧
    resolve (Handle.model 7) = resolve (Handle.mapper 7) ∧
    ((runGets [Handle.model 7, Handle.mapper 7] (RegState.mk [] 0)).1.get? 0 =
        (runGets [Handle.model 7, Handle.mapper 7] (RegState.mk [] 0)).1.get? 1 ∧
      ∀ m t, regGet (Handle.mapper m) t = regGet (Handle.model m) t) :=
  ⟨rfl, rfl, rfl,
    registry_unique [Handle.model 7, Handle.mapper 7] (RegState.mk [] 0) 0 1
      (Handle.model 7) (Handle.mapper 7) rfl rfl rfl⟩

end Meta
